import Mathlib

/-!
Verification of the OrderBook aggregation service (Rust) against its
natural-language specification.

The development shallowly embeds the pure core of the program:

* `src/orderbook_helper.rs` — `PriceAmountLevel`, `OrderBook`,
  `sort_and_trim_levels`, `process_message`, `merge_orderbooks`, and the
  subscription-frame construction of `binance_connect` / `bitstamp_connect`;
* `src/server.rs` — the command-line symbol extraction of `main`.

Rust `f64` values are modelled by the inductive type `FV`: finite values are
exact rationals, and NaN and the two infinities are separate constructors.
Signed zero is merged into `0` and decimal-to-binary rounding is not modelled;
no claim below depends on either.  A comparison or subtraction involving NaN
behaves as in IEEE-754.  Code that can panic (the `partial_cmp(..).unwrap()`
inside the sort comparator) is embedded as an `Option`-returning function,
`none` meaning a panic.
-/

namespace OBook

attribute [local semireducible] Rat.mul Rat.add Rat.sub Rat.inv

/-- Model of a Rust `f64` value: an exact rational, NaN, or an infinity. -/
inductive FV where
  | fin (q : ℚ)
  | nan
  | inf
  | ninf
deriving DecidableEq

/-- Whether the value is NaN. -/
def FV.isNaN : FV → Bool
  | .nan => true
  | _ => false

/-- Total linearisation of `FV` used to analyse the partial IEEE-754 order:
it agrees with the IEEE order on non-NaN values and puts NaN on top. -/
def cmpFV : FV → FV → Ordering
  | .ninf, .ninf => .eq
  | .ninf, .fin _ => .lt
  | .ninf, .inf => .lt
  | .ninf, .nan => .lt
  | .fin _, .ninf => .gt
  | .fin a, .fin b => compare a b
  | .fin _, .inf => .lt
  | .fin _, .nan => .lt
  | .inf, .ninf => .gt
  | .inf, .fin _ => .gt
  | .inf, .inf => .eq
  | .inf, .nan => .lt
  | .nan, .ninf => .gt
  | .nan, .fin _ => .gt
  | .nan, .inf => .gt
  | .nan, .nan => .eq

/-- Model of `f64::partial_cmp`: `none` exactly when an operand is NaN;
otherwise the IEEE total order on non-NaN values. -/
def FV.partialCmp (x y : FV) : Option Ordering :=
  if x.isNaN || y.isNaN then none else some (cmpFV x y)

/-- Model of `f64` equality `==`: NaN is not equal to anything (signed zeros
are already merged by the `FV` model). -/
def FV.beq (x y : FV) : Bool :=
  if x.isNaN || y.isNaN then false else cmpFV x y == .eq

/-- Model of `f64` subtraction, used only for the `spread` field. -/
def FV.sub : FV → FV → FV
  | .nan, _ => .nan
  | _, .nan => .nan
  | .inf, .inf => .nan
  | .inf, _ => .inf
  | .ninf, .ninf => .nan
  | .ninf, _ => .ninf
  | .fin _, .inf => .ninf
  | .fin _, .ninf => .inf
  | .fin a, .fin b => .fin (a - b)

theorem compareQ_swap (a b : ℚ) : compare a b = (compare b a).swap := by
  rcases lt_trichotomy a b with h | h | h
  · rw [compare_lt_iff_lt.mpr h, compare_gt_iff_gt.mpr h]; rfl
  · rw [compare_eq_iff_eq.mpr h, compare_eq_iff_eq.mpr h.symm]; rfl
  · rw [compare_gt_iff_gt.mpr h, compare_lt_iff_lt.mpr h]; rfl

theorem cmpFV_refl (x : FV) : cmpFV x x = .eq := by
  cases x <;> simp [cmpFV, compare_eq_iff_eq]

theorem cmpFV_eq {x y : FV} (h : cmpFV x y = .eq) : x = y := by
  cases x <;> cases y <;> simp_all [cmpFV, compare_eq_iff_eq]

theorem cmpFV_swap : ∀ x y : FV, cmpFV x y = (cmpFV y x).swap
  | .ninf, .ninf => rfl
  | .ninf, .fin _ => rfl
  | .ninf, .inf => rfl
  | .ninf, .nan => rfl
  | .fin _, .ninf => rfl
  | .fin a, .fin b => compareQ_swap a b
  | .fin _, .inf => rfl
  | .fin _, .nan => rfl
  | .inf, .ninf => rfl
  | .inf, .fin _ => rfl
  | .inf, .inf => rfl
  | .inf, .nan => rfl
  | .nan, .ninf => rfl
  | .nan, .fin _ => rfl
  | .nan, .inf => rfl
  | .nan, .nan => rfl

theorem cmpFV_le_trans {x y z : FV} (h1 : cmpFV x y ≠ .gt) (h2 : cmpFV y z ≠ .gt) :
    cmpFV x z ≠ .gt := by
  cases x <;> cases y <;> cases z <;>
    simp_all only [cmpFV, ne_eq, compare_le_iff_le, reduceCtorEq, not_false_eq_true,
      not_true_eq_false]
  exact le_trans h1 h2

theorem cmpFV_eq_of_le_of_ge {x y : FV} (h1 : cmpFV x y ≠ .gt) (h2 : cmpFV y x ≠ .gt) :
    cmpFV x y = .eq := by
  have hs := cmpFV_swap x y
  cases h : cmpFV y x <;> rw [h] at hs
  · exact absurd hs h1
  · exact hs
  · exact absurd h h2

/-- A price level attributable to one exchange
(`PriceAmountLevel`, src/orderbook_helper.rs lines 8-13). -/
structure PriceAmountLevel where
  exchange : String
  price : FV
  amount : FV
deriving DecidableEq

/-- A book snapshot (`OrderBook`, src/orderbook_helper.rs lines 15-20). -/
structure OrderBook where
  bids : List PriceAmountLevel
  asks : List PriceAmountLevel
  spread : FV
deriving DecidableEq

/-- The comparator closure passed to `sort_by` inside `sort_and_trim_levels`
(src/orderbook_helper.rs lines 75-86): equal prices compare amounts
descending, otherwise prices in the requested direction.  `none` models a
panic of `partial_cmp(..).unwrap()`. -/
def levelCmp (ascending : Bool) (a b : PriceAmountLevel) : Option Ordering :=
  if FV.beq a.price b.price then FV.partialCmp b.amount a.amount
  else if ascending then FV.partialCmp a.price b.price
  else FV.partialCmp b.price a.price

/-- The price-amount key of a level. -/
def levelKey (l : PriceAmountLevel) : FV × FV :=
  (l.price, l.amount)

/-- Total comparator on keys: price by `cmpFV` in the requested direction,
ties by amount descending.  On NaN-free values it agrees with `levelCmp`. -/
def cmpKey (ascending : Bool) (k k' : FV × FV) : Ordering :=
  if cmpFV k.1 k'.1 = .eq then cmpFV k'.2 k.2
  else if ascending then cmpFV k.1 k'.1 else cmpFV k'.1 k.1

/-- Key order: `k` precedes or ties `k'` under `cmpKey`. -/
def keyLe (ascending : Bool) (k k' : FV × FV) : Prop :=
  cmpKey ascending k k' ≠ .gt

/-- Level order induced by the key order. -/
def levelLe (ascending : Bool) (a b : PriceAmountLevel) : Prop :=
  keyLe ascending (levelKey a) (levelKey b)

instance (ascending : Bool) : DecidableRel (keyLe ascending) := fun _ _ => by
  unfold keyLe; infer_instance

instance (ascending : Bool) : DecidableRel (levelLe ascending) := fun _ _ => by
  unfold levelLe keyLe; infer_instance

theorem cmpKey_swap (ascending : Bool) (k k' : FV × FV) :
    cmpKey ascending k k' = (cmpKey ascending k' k).swap := by
  unfold cmpKey
  by_cases h : cmpFV k.1 k'.1 = .eq
  · have h' : cmpFV k'.1 k.1 = .eq := by rw [cmpFV_swap, h]; rfl
    rw [if_pos h, if_pos h']
    exact cmpFV_swap _ _
  · have h' : cmpFV k'.1 k.1 ≠ .eq := by
      intro he
      exact h (by rw [cmpFV_swap, he]; rfl)
    rw [if_neg h, if_neg h']
    cases ascending
    · simp only [Bool.false_eq_true, if_false]
      exact cmpFV_swap _ _
    · simp only [if_true]
      exact cmpFV_swap _ _

theorem cmpKey_eq {ascending : Bool} {k k' : FV × FV} (h : cmpKey ascending k k' = .eq) :
    k = k' := by
  obtain ⟨p, a⟩ := k
  obtain ⟨p', a'⟩ := k'
  unfold cmpKey at h
  simp only at h
  by_cases h1 : cmpFV p p' = .eq
  · rw [if_pos h1] at h
    rw [cmpFV_eq h1, cmpFV_eq h]
  · rw [if_neg h1] at h
    cases ascending
    · simp only [Bool.false_eq_true, if_false] at h
      exact absurd (by rw [cmpFV_swap, h]; rfl) h1
    · simp only [if_true] at h
      exact absurd h h1

theorem keyLe_trans {ascending : Bool} {k₁ k₂ k₃ : FV × FV}
    (h1 : keyLe ascending k₁ k₂) (h2 : keyLe ascending k₂ k₃) : keyLe ascending k₁ k₃ := by
  obtain ⟨p₁, a₁⟩ := k₁
  obtain ⟨p₂, a₂⟩ := k₂
  obtain ⟨p₃, a₃⟩ := k₃
  unfold keyLe cmpKey at h1 h2 ⊢
  simp only at h1 h2 ⊢
  by_cases e12 : cmpFV p₁ p₂ = .eq
  · obtain rfl : p₁ = p₂ := cmpFV_eq e12
    rw [if_pos e12] at h1
    by_cases e13 : cmpFV p₁ p₃ = .eq
    · obtain rfl : p₁ = p₃ := cmpFV_eq e13
      rw [if_pos e13] at h2 ⊢
      exact cmpFV_le_trans h2 h1
    · rw [if_neg e13] at h2 ⊢
      exact h2
  · by_cases e23 : cmpFV p₂ p₃ = .eq
    · obtain rfl : p₂ = p₃ := cmpFV_eq e23
      rw [if_neg e12] at h1 ⊢
      exact h1
    · rw [if_neg e12] at h1
      rw [if_neg e23] at h2
      have e13 : cmpFV p₁ p₃ ≠ .eq := by
        intro he
        obtain rfl : p₁ = p₃ := cmpFV_eq he
        cases ascending
        · simp only [Bool.false_eq_true, if_false] at h1 h2
          exact e12 (cmpFV_eq_of_le_of_ge h2 h1)
        · simp only [if_true] at h1 h2
          exact e12 (cmpFV_eq_of_le_of_ge h1 h2)
      rw [if_neg e13]
      cases ascending
      · simp only [Bool.false_eq_true, if_false] at h1 h2 ⊢
        exact cmpFV_le_trans h2 h1
      · simp only [if_true] at h1 h2 ⊢
        exact cmpFV_le_trans h1 h2

theorem keyLe_total (ascending : Bool) (k k' : FV × FV) :
    keyLe ascending k k' ∨ keyLe ascending k' k := by
  unfold keyLe
  rw [cmpKey_swap ascending k k']
  cases cmpKey ascending k' k <;> simp [Ordering.swap]

theorem keyLe_antisymm {ascending : Bool} {k k' : FV × FV}
    (h1 : keyLe ascending k k') (h2 : keyLe ascending k' k) : k = k' := by
  apply @cmpKey_eq ascending k k'
  have hs := cmpKey_swap ascending k k'
  cases h : cmpKey ascending k' k <;> rw [h] at hs
  · exact absurd hs h1
  · exact hs
  · exact absurd h h2

instance (ascending : Bool) : IsTotal PriceAmountLevel (levelLe ascending) :=
  ⟨fun a b => keyLe_total ascending (levelKey a) (levelKey b)⟩

instance (ascending : Bool) : IsTrans PriceAmountLevel (levelLe ascending) :=
  ⟨fun _ _ _ => keyLe_trans⟩

instance (ascending : Bool) : IsTrans (FV × FV) (keyLe ascending) :=
  ⟨fun _ _ _ => keyLe_trans⟩

instance (ascending : Bool) : IsAntisymm (FV × FV) (keyLe ascending) :=
  ⟨fun _ _ => keyLe_antisymm⟩

/-- Stable insertion with a fallible comparator; `none` models a comparator
panic.  The element goes before the first entry it does not compare strictly
greater than, which is the stable placement `Vec::sort_by` produces. -/
def orderedInsertP (c : PriceAmountLevel → PriceAmountLevel → Option Ordering)
    (a : PriceAmountLevel) : List PriceAmountLevel → Option (List PriceAmountLevel)
  | [] => some [a]
  | b :: l =>
    match c a b with
    | none => none
    | some .gt => (orderedInsertP c a l).map (fun t => b :: t)
    | some _ => some (a :: b :: l)

/-- Stable sort with a fallible comparator: the unique stable sorted
permutation `Vec::sort_by` returns, or `none` when the comparator panics. -/
def insertionSortP (c : PriceAmountLevel → PriceAmountLevel → Option Ordering) :
    List PriceAmountLevel → Option (List PriceAmountLevel)
  | [] => some []
  | a :: l => (insertionSortP c l).bind (orderedInsertP c a)

/-- `sort_and_trim_levels` (src/orderbook_helper.rs lines 68-93): copy the
slice, stable-sort it by `levelCmp`, then keep the first `depth` entries when
`depth` does not exceed the length.  `none` models a comparator panic. -/
def sort_and_trim_levels (levels : List PriceAmountLevel) (depth : Nat) (ascending : Bool) :
    Option (List PriceAmountLevel) :=
  (insertionSortP (levelCmp ascending) levels).map
    (fun sorted => if depth ≤ sorted.length then sorted.take depth else sorted)

theorem orderedInsertP_perm {c : PriceAmountLevel → PriceAmountLevel → Option Ordering}
    {a : PriceAmountLevel} :
    ∀ {l out : List PriceAmountLevel}, orderedInsertP c a l = some out → out.Perm (a :: l) := by
  intro l
  induction l with
  | nil =>
    intro out h
    simp only [orderedInsertP, Option.some.injEq] at h
    rw [← h]
  | cons b t ih =>
    intro out h
    unfold orderedInsertP at h
    cases hc : c a b with
    | none => rw [hc] at h; cases h
    | some o =>
      rw [hc] at h
      cases o with
      | lt =>
        have h' : a :: b :: t = out := Option.some.inj h
        rw [← h']
      | eq =>
        have h' : a :: b :: t = out := Option.some.inj h
        rw [← h']
      | gt =>
        cases ht : orderedInsertP c a t with
        | none => rw [ht] at h; cases h
        | some t' =>
          rw [ht] at h
          simp only [Option.map_some', Option.some.injEq] at h
          rw [← h]
          exact ((ih ht).cons b).trans (List.Perm.swap a b t)

theorem insertionSortP_perm {c : PriceAmountLevel → PriceAmountLevel → Option Ordering} :
    ∀ {l out : List PriceAmountLevel}, insertionSortP c l = some out → out.Perm l := by
  intro l
  induction l with
  | nil =>
    intro out h
    simp only [insertionSortP, Option.some.injEq] at h
    rw [← h]
  | cons a t ih =>
    intro out h
    unfold insertionSortP at h
    cases ht : insertionSortP c t with
    | none => rw [ht] at h; cases h
    | some s =>
      rw [ht] at h
      exact (orderedInsertP_perm h).trans ((ih ht).cons a)

/-- A level both of whose numeric fields are non-NaN. -/
def noNaNLevel (l : PriceAmountLevel) : Prop :=
  l.price.isNaN = false ∧ l.amount.isNaN = false

instance (l : PriceAmountLevel) : Decidable (noNaNLevel l) := by
  unfold noNaNLevel; infer_instance

/-- On NaN-free levels the source comparator is total and agrees with the
key comparator. -/
theorem levelCmp_eq_total (ascending : Bool) {a b : PriceAmountLevel}
    (ha : noNaNLevel a) (hb : noNaNLevel b) :
    levelCmp ascending a b = some (cmpKey ascending (levelKey a) (levelKey b)) := by
  obtain ⟨hap, haa⟩ := ha
  obtain ⟨hbp, hba⟩ := hb
  unfold levelCmp cmpKey levelKey FV.beq FV.partialCmp
  rw [hap, hbp, haa, hba]
  simp only [Bool.or_self, Bool.or_false, Bool.false_or, if_false]
  by_cases hpe : cmpFV a.price b.price = .eq
  · rw [if_pos (by rw [hpe]; rfl), if_pos hpe]
    rfl
  · have hb1 : (cmpFV a.price b.price == Ordering.eq) = false := by
      cases hcv : cmpFV a.price b.price
      · rfl
      · exact absurd hcv hpe
      · rfl
    rw [if_neg (by rw [hb1]; exact Bool.false_ne_true), if_neg hpe]
    cases ascending <;> rfl

theorem orderedInsertP_eq (ascending : Bool) {a : PriceAmountLevel} (ha : noNaNLevel a) :
    ∀ l : List PriceAmountLevel, (∀ x ∈ l, noNaNLevel x) →
      orderedInsertP (levelCmp ascending) a l =
        some (List.orderedInsert (levelLe ascending) a l) := by
  intro l
  induction l with
  | nil => intro _; rfl
  | cons b t ih =>
    intro hl
    have hb := hl b (List.mem_cons_self b t)
    have ht : ∀ x ∈ t, noNaNLevel x := fun x hx => hl x (List.mem_cons_of_mem b hx)
    unfold orderedInsertP
    rw [levelCmp_eq_total ascending ha hb]
    cases ho : cmpKey ascending (levelKey a) (levelKey b) with
    | lt =>
      have hle : levelLe ascending a b := by
        unfold levelLe keyLe; rw [ho]; decide
      simp only [List.orderedInsert, if_pos hle]
    | eq =>
      have hle : levelLe ascending a b := by
        unfold levelLe keyLe; rw [ho]; decide
      simp only [List.orderedInsert, if_pos hle]
    | gt =>
      have hgt : ¬ levelLe ascending a b := by
        unfold levelLe keyLe; rw [ho]; simp
      rw [ih ht]
      simp only [List.orderedInsert, if_neg hgt, Option.map_some']

theorem insertionSortP_eq (ascending : Bool) :
    ∀ l : List PriceAmountLevel, (∀ x ∈ l, noNaNLevel x) →
      insertionSortP (levelCmp ascending) l =
        some (List.insertionSort (levelLe ascending) l) := by
  intro l
  induction l with
  | nil => intro _; rfl
  | cons a t ih =>
    intro hl
    have ha := hl a (List.mem_cons_self a t)
    have ht : ∀ x ∈ t, noNaNLevel x := fun x hx => hl x (List.mem_cons_of_mem a hx)
    unfold insertionSortP
    rw [ih ht]
    have hs : ∀ x ∈ List.insertionSort (levelLe ascending) t, noNaNLevel x := by
      intro x hx
      exact ht x ((List.perm_insertionSort (levelLe ascending) t).mem_iff.mp hx)
    show orderedInsertP (levelCmp ascending) a (List.insertionSort (levelLe ascending) t) = _
    rw [orderedInsertP_eq ascending ha _ hs]
    rfl

theorem fvBeq_true {x y : FV} (h : FV.beq x y = true) : x = y := by
  unfold FV.beq at h
  by_cases hn : (x.isNaN || y.isNaN) = true
  · rw [if_pos hn] at h
    cases h
  · rw [if_neg hn] at h
    cases hc : cmpFV x y
    · rw [hc] at h; exact absurd h (by decide)
    · exact cmpFV_eq hc
    · rw [hc] at h; exact absurd h (by decide)

/-- Membership of a level in the full-tie class of a price-amount key,
in the sense of `f64` equality. -/
def tieClass (k : FV × FV) (l : PriceAmountLevel) : Bool :=
  FV.beq l.price k.1 && FV.beq l.amount k.2

/-- Any two members of one full-tie class are mutually `levelLe`-related. -/
theorem tieClass_le (ascending : Bool) {k : FV × FV} {x y : PriceAmountLevel}
    (hx : tieClass k x = true) (hy : tieClass k y = true) : levelLe ascending x y := by
  rw [tieClass, Bool.and_eq_true] at hx hy
  have hp : x.price = y.price := (fvBeq_true hx.1).trans (fvBeq_true hy.1).symm
  have ham : x.amount = y.amount := (fvBeq_true hx.2).trans (fvBeq_true hy.2).symm
  unfold levelLe keyLe cmpKey levelKey
  simp only
  rw [hp, ham, if_pos (cmpFV_refl _), cmpFV_refl]
  decide

theorem filter_orderedInsert_of_neg {α : Type} (r : α → α → Prop) [DecidableRel r]
    (p : α → Bool) {a : α} (ha : p a = false) :
    ∀ l : List α, (List.orderedInsert r a l).filter p = l.filter p := by
  intro l
  induction l with
  | nil => simp [List.orderedInsert, List.filter_cons, ha]
  | cons b t ih =>
    unfold List.orderedInsert
    by_cases hr : r a b
    · rw [if_pos hr]
      simp [List.filter_cons, ha]
    · rw [if_neg hr]
      simp only [List.filter_cons]
      rw [ih]

theorem filter_orderedInsert_of_pos {α : Type} (r : α → α → Prop) [DecidableRel r]
    (p : α → Bool) {a : α} (ha : p a = true) :
    ∀ l : List α, (∀ b ∈ l, p b = true → r a b) →
      (List.orderedInsert r a l).filter p = a :: l.filter p := by
  intro l
  induction l with
  | nil => intro _; simp [List.orderedInsert, List.filter_cons, ha]
  | cons b t ih =>
    intro hl
    unfold List.orderedInsert
    by_cases hr : r a b
    · rw [if_pos hr]
      simp [List.filter_cons, ha]
    · rw [if_neg hr]
      have hpb : p b = false := by
        cases hpb : p b
        · rfl
        · exact absurd (hl b (List.mem_cons_self b t) hpb) hr
      simp only [List.filter_cons, hpb, Bool.false_eq_true, if_false]
      rw [ih (fun c hc => hl c (List.mem_cons_of_mem b hc))]

/-- Stability of insertion sort: filtering to one mutually-related class
recovers the input order of that class. -/
theorem filter_insertionSort_of_class {α : Type} (r : α → α → Prop) [DecidableRel r]
    (p : α → Bool) (hcls : ∀ x y, p x = true → p y = true → r x y) :
    ∀ l : List α, (List.insertionSort r l).filter p = l.filter p := by
  intro l
  induction l with
  | nil => rfl
  | cons a t ih =>
    show (List.orderedInsert r a (List.insertionSort r t)).filter p = _
    cases hpa : p a
    · rw [filter_orderedInsert_of_neg r p hpa, ih]
      simp [List.filter_cons, hpa]
    · rw [filter_orderedInsert_of_pos r p hpa _ (fun b _ hpb => hcls a b hpa hpb), ih]
      simp [List.filter_cons, hpa]

/-- Non-strict order on `FV` values via the linearisation; on non-NaN values
this is the IEEE-754 comparison. -/
def fvLe (x y : FV) : Prop :=
  cmpFV x y ≠ .gt

/-- The per-side ordering contract of the spec: prices weakly ordered in the
requested direction, equal prices ordered by amount descending. -/
def levelOrdered (ascending : Bool) (a b : PriceAmountLevel) : Prop :=
  (if ascending then fvLe a.price b.price else fvLe b.price a.price) ∧
    (a.price = b.price → fvLe b.amount a.amount)

theorem levelLe_imp_levelOrdered {ascending : Bool} {a b : PriceAmountLevel}
    (h : levelLe ascending a b) : levelOrdered ascending a b := by
  unfold levelLe keyLe cmpKey levelKey at h
  simp only at h
  unfold levelOrdered fvLe
  by_cases hpe : cmpFV a.price b.price = .eq
  · have hp : a.price = b.price := cmpFV_eq hpe
    rw [if_pos hpe] at h
    refine ⟨?_, fun _ => h⟩
    cases ascending
    · simp only [Bool.false_eq_true, if_false]
      rw [← hp, cmpFV_refl]
      decide
    · simp only [if_true]
      rw [hpe]
      decide
  · rw [if_neg hpe] at h
    refine ⟨?_, fun hp => absurd (hp ▸ cmpFV_refl a.price) hpe⟩
    cases ascending
    · simp only [Bool.false_eq_true, if_false] at h ⊢
      exact h
    · simp only [if_true] at h ⊢
      exact h

/-- A parsed JSON document, the model of `serde_json::Value`. -/
inductive Json where
  | null
  | jbool (b : Bool)
  | jnum (q : ℚ)
  | jstr (s : String)
  | jarr (items : List Json)
  | jobj (fields : List (String × Json))

/-- `Value::get` with a string key: a field lookup, `none` when the value
is not an object or has no such field. -/
def Json.get : Json → String → Option Json
  | .jobj fields, key => (fields.find? (fun f => f.1 == key)).map (fun f => f.2)
  | _, _ => none

/-- `Value::index` as used by `data["bids"]`: like `get` but yielding `Null`
when the value is not an object or lacks the field. -/
def Json.index (j : Json) (key : String) : Json :=
  (j.get key).getD .null

/-- `Value::get` with a numeric index: `none` when the value is not an array
or the index is out of bounds. -/
def Json.getIdx : Json → Nat → Option Json
  | .jarr items, i => items.get? i
  | _, _ => none

/-- `Value::as_array`. -/
def Json.asArray : Json → Option (List Json)
  | .jarr items => some items
  | _ => none

/-- `Value::as_str`. -/
def Json.asStr : Json → Option String
  | .jstr s => some s
  | _ => none

/-- Decimal digits read as a natural number. -/
def digitsVal (ds : List Char) : Nat :=
  ds.foldl (fun n c => 10 * n + (c.toNat - 48)) 0

/-- The exponent suffix of a float literal: empty, or `e` / `E`, an optional
sign and at least one digit.  Modelled from the grammar of Rust's
`f64::from_str`. -/
def parseExp : List Char → Option Int
  | [] => some 0
  | c :: rest =>
    if c = 'e' ∨ c = 'E' then
      match rest with
      | '+' :: ds =>
        if ds ≠ [] ∧ ds.all Char.isDigit then some (Int.ofNat (digitsVal ds)) else none
      | '-' :: ds =>
        if ds ≠ [] ∧ ds.all Char.isDigit then some (-(Int.ofNat (digitsVal ds))) else none
      | ds =>
        if ds ≠ [] ∧ ds.all Char.isDigit then some (Int.ofNat (digitsVal ds)) else none
    else none

/-- The rational value of mantissa digits `ip`, fraction digits `fp` and
exponent `e`, namely `ip.fp × 10^e`. -/
def decValue (ip fp : List Char) (e : Int) : ℚ :=
  let m : Int := Int.ofNat (digitsVal (ip ++ fp))
  match e with
  | .ofNat k => Rat.divInt (m * Int.ofNat (10 ^ k)) (Int.ofNat (10 ^ fp.length))
  | .negSucc k => Rat.divInt m (Int.ofNat (10 ^ fp.length * 10 ^ (k + 1)))

/-- The unsigned numeric part of a float literal: digits, an optional point
with further digits, then an optional exponent; at least one mantissa digit
is required. -/
def parseNumber (cs : List Char) : Option ℚ :=
  let ip := cs.takeWhile Char.isDigit
  let r1 := cs.dropWhile Char.isDigit
  match r1 with
  | '.' :: r2 =>
    let fp := r2.takeWhile Char.isDigit
    let r3 := r2.dropWhile Char.isDigit
    if ip = [] ∧ fp = [] then none
    else (parseExp r3).map (fun e => decValue ip fp e)
  | _ =>
    if ip = [] then none else (parseExp r1).map (fun e => decValue ip [] e)

/-- Model of `str::parse::<f64>` (Rust's `f64::from_str`): an optional sign,
then `inf`, `infinity` or `nan` case-insensitively, or a decimal number with
optional fraction and exponent.  Finite values are modelled as exact
rationals: decimal-to-binary rounding, saturation of huge exponents to
infinity, and the sign of zero are not modelled; no claim below depends on
these. -/
def parseF64 (s : String) : Option FV :=
  let cs := s.data
  let sgn : Bool × List Char :=
    match cs with
    | '+' :: rest => (false, rest)
    | '-' :: rest => (true, rest)
    | rest => (false, rest)
  let neg := sgn.1
  let body := sgn.2
  let low := body.map Char.toLower
  if low = ['i', 'n', 'f'] ∨ low = ['i', 'n', 'f', 'i', 'n', 'i', 't', 'y'] then
    some (if neg then FV.ninf else FV.inf)
  else if low = ['n', 'a', 'n'] then
    some FV.nan
  else
    (parseNumber body).map (fun q => FV.fin (if neg then -q else q))

/-- The `filter_map` closure of `process_message`
(src/orderbook_helper.rs lines 107-124): read entry 0 as the price and
entry 1 as the amount, both as stringified numbers, and build a level
tagged with the exchange; `none` (skip) when either is absent or fails to
parse. -/
def parseLevel (exchange : String) (entry : Json) : Option PriceAmountLevel :=
  match (entry.getIdx 0).bind (fun v => (v.asStr).bind (fun s => parseF64 s)) with
  | some price =>
    match (entry.getIdx 1).bind (fun v => (v.asStr).bind (fun s => parseF64 s)) with
    | some amount => some ⟨exchange, price, amount⟩
    | none => none
  | none => none

/-- The document the parser descends into: the value of a top-level `data`
field when present (Bitstamp convention), the whole document otherwise
(Binance convention); src/orderbook_helper.rs lines 96-102. -/
def jsonData (msg : Json) : Json :=
  (msg.get "data").getD msg

/-- The bid levels parsed from a frame, in input order. -/
def parsed_bids (msg : Json) (exchange : String) : List PriceAmountLevel :=
  (((jsonData msg).index "bids").asArray.getD []).filterMap (parseLevel exchange)

/-- The ask levels parsed from a frame, in input order. -/
def parsed_asks (msg : Json) (exchange : String) : List PriceAmountLevel :=
  (((jsonData msg).index "asks").asArray.getD []).filterMap (parseLevel exchange)

/-- The spread computation of src/orderbook_helper.rs lines 155-158 and
193-196: first bid price minus first ask price, `0.0` when either list is
empty. -/
def spreadOf (bids asks : List PriceAmountLevel) : FV :=
  match bids.head?, asks.head? with
  | some firstBid, some firstAsk => FV.sub firstBid.price firstAsk.price
  | _, _ => FV.fin 0

/-- `process_message` (src/orderbook_helper.rs lines 95-177) on an already
deserialised frame (a frame that fails JSON deserialisation returns `None`
before this logic runs, so nothing is lost by starting from `Json`).  The
spread is computed from the parsed lists before sorting, as in the source.
The outer `Option` models a panic inside the sort (`none` = panic); the
inner `Option` is the function's own return value. -/
def process_message (msg : Json) (exchange : String) (depth : Nat) :
    Option (Option OrderBook) :=
  match ((jsonData msg).index "bids").asArray with
  | none => some none
  | some bidsArr =>
    match ((jsonData msg).index "asks").asArray with
    | none => some none
    | some asksArr =>
      match sort_and_trim_levels (bidsArr.filterMap (parseLevel exchange)) depth false,
          sort_and_trim_levels (asksArr.filterMap (parseLevel exchange)) depth true with
      | some selectedBids, some selectedAsks =>
        some (some ⟨selectedBids, selectedAsks,
          spreadOf (bidsArr.filterMap (parseLevel exchange))
            (asksArr.filterMap (parseLevel exchange))⟩)
      | _, _ => none

/-- `merge_orderbooks` (src/orderbook_helper.rs lines 179-203): concatenate
the two books side by side, sort and trim each side, and compute the spread
from the heads of the sorted, trimmed sides.  `none` models a sort panic. -/
def merge_orderbooks (binanceOrderbook bitstampOrderbook : OrderBook) (depth : Nat) :
    Option OrderBook :=
  match sort_and_trim_levels (binanceOrderbook.bids ++ bitstampOrderbook.bids) depth false,
      sort_and_trim_levels (binanceOrderbook.asks ++ bitstampOrderbook.asks) depth true with
  | some sortedBids, some sortedAsks =>
    some ⟨sortedBids, sortedAsks, spreadOf sortedBids sortedAsks⟩
  | _, _ => none

/-- The symbol taken from the command line by `main` in src/server.rs lines
200-206: the second process argument, used verbatim. -/
def serverSymbol (args : List String) : Option String :=
  if args.length < 2 then none else args.get? 1

/-- The stream name substituted into the `params` entry of the Binance
subscribe frame by `binance_connect` (src/orderbook_helper.rs lines
218-229). -/
def binanceStreamParam (symbol : String) (depth : Nat) : String :=
  symbol ++ "@depth" ++ toString depth

/-- The channel name substituted into the Bitstamp subscribe frame by
`bitstamp_connect` (src/orderbook_helper.rs line 263). -/
def bitstampChannel (symbol : String) : String :=
  "detail_order_book_" ++ symbol

theorem sort_and_trim_eq (ascending : Bool) (levels : List PriceAmountLevel) (depth : Nat)
    (h : ∀ l ∈ levels, noNaNLevel l) :
    sort_and_trim_levels levels depth ascending =
      some ((List.insertionSort (levelLe ascending) levels).take depth) := by
  unfold sort_and_trim_levels
  rw [insertionSortP_eq ascending levels h]
  simp only [Option.map_some', Option.some.injEq]
  by_cases hd : depth ≤ (List.insertionSort (levelLe ascending) levels).length
  · rw [if_pos hd]
  · rw [if_neg hd]
    exact (List.take_of_length_le (Nat.le_of_lt (Nat.lt_of_not_le hd))).symm

theorem sort_and_trim_length {levels : List PriceAmountLevel} {depth : Nat} {ascending : Bool}
    {out : List PriceAmountLevel} (h : sort_and_trim_levels levels depth ascending = some out) :
    out.length = min depth levels.length := by
  unfold sort_and_trim_levels at h
  cases hs : insertionSortP (levelCmp ascending) levels with
  | none => rw [hs] at h; cases h
  | some s =>
    rw [hs] at h
    simp only [Option.map_some', Option.some.injEq] at h
    have hp : s.length = levels.length := (insertionSortP_perm hs).length_eq
    rw [← h]
    by_cases hd : depth ≤ s.length
    · rw [if_pos hd, List.length_take]
      omega
    · rw [if_neg hd]
      omega

theorem sort_and_trim_subset {levels : List PriceAmountLevel} {depth : Nat} {ascending : Bool}
    {out : List PriceAmountLevel} (h : sort_and_trim_levels levels depth ascending = some out) :
    ∀ l ∈ out, l ∈ levels := by
  unfold sort_and_trim_levels at h
  cases hs : insertionSortP (levelCmp ascending) levels with
  | none => rw [hs] at h; cases h
  | some s =>
    rw [hs] at h
    simp only [Option.map_some', Option.some.injEq] at h
    intro l hl
    rw [← h] at hl
    have hls : l ∈ s := by
      by_cases hd : depth ≤ s.length
      · rw [if_pos hd] at hl
        exact List.take_subset _ _ hl
      · rw [if_neg hd] at hl
        exact hl
    exact (insertionSortP_perm hs).mem_iff.mp hls

theorem merge_orderbooks_some {b1 b2 : OrderBook} {depth : Nat} {bk : OrderBook}
    (h : merge_orderbooks b1 b2 depth = some bk) :
    sort_and_trim_levels (b1.bids ++ b2.bids) depth false = some bk.bids ∧
    sort_and_trim_levels (b1.asks ++ b2.asks) depth true = some bk.asks ∧
    bk.spread = spreadOf bk.bids bk.asks := by
  unfold merge_orderbooks at h
  cases hb : sort_and_trim_levels (b1.bids ++ b2.bids) depth false with
  | none => rw [hb] at h; cases h
  | some sb =>
    cases ha : sort_and_trim_levels (b1.asks ++ b2.asks) depth true with
    | none => rw [hb, ha] at h; cases h
    | some sa =>
      rw [hb, ha] at h
      obtain rfl : OrderBook.mk sb sa (spreadOf sb sa) = bk := Option.some.inj h
      exact ⟨rfl, rfl, rfl⟩

theorem process_message_some {msg : Json} {exchange : String} {depth : Nat} {bk : OrderBook}
    (h : process_message msg exchange depth = some (some bk)) :
    ∃ bidsArr asksArr,
      ((jsonData msg).index "bids").asArray = some bidsArr ∧
      ((jsonData msg).index "asks").asArray = some asksArr ∧
      sort_and_trim_levels (bidsArr.filterMap (parseLevel exchange)) depth false =
        some bk.bids ∧
      sort_and_trim_levels (asksArr.filterMap (parseLevel exchange)) depth true =
        some bk.asks ∧
      bk.spread = spreadOf (bidsArr.filterMap (parseLevel exchange))
        (asksArr.filterMap (parseLevel exchange)) := by
  unfold process_message at h
  split at h
  · exact absurd (Option.some.inj h) (by simp)
  · rename_i bidsArr hB
    split at h
    · exact absurd (Option.some.inj h) (by simp)
    · rename_i asksArr hA
      split at h
      · rename_i sb sa hsb hsa
        obtain rfl := Option.some.inj (Option.some.inj h)
        exact ⟨bidsArr, asksArr, hB, hA, hsb, hsa, rfl⟩
      · cases h

theorem parsed_bids_eq {msg : Json} {exchange : String} {bidsArr : List Json}
    (hb : ((jsonData msg).index "bids").asArray = some bidsArr) :
    parsed_bids msg exchange = bidsArr.filterMap (parseLevel exchange) := by
  unfold parsed_bids
  rw [hb]
  rfl

theorem parsed_asks_eq {msg : Json} {exchange : String} {asksArr : List Json}
    (ha : ((jsonData msg).index "asks").asArray = some asksArr) :
    parsed_asks msg exchange = asksArr.filterMap (parseLevel exchange) := by
  unfold parsed_asks
  rw [ha]
  rfl

/-- C7: for every input frame and every pair of input books, the Book
returned by `process_message` with depth `d` and the Book returned by
`merge_orderbooks` with depth `d` each have at most `d` bids and at most
`d` asks. -/
theorem c7_depth_bound :
    (∀ msg exchange depth bk, process_message msg exchange depth = some (some bk) →
      bk.bids.length ≤ depth ∧ bk.asks.length ≤ depth) ∧
    (∀ b1 b2 depth bk, merge_orderbooks b1 b2 depth = some bk →
      bk.bids.length ≤ depth ∧ bk.asks.length ≤ depth) := by
  constructor
  · intro msg exchange depth bk h
    obtain ⟨bA, aA, _, _, hsb, hsa, _⟩ := process_message_some h
    have h1 := sort_and_trim_length hsb
    have h2 := sort_and_trim_length hsa
    omega
  · intro b1 b2 depth bk h
    obtain ⟨hsb, hsa, _⟩ := merge_orderbooks_some h
    have h1 := sort_and_trim_length hsb
    have h2 := sort_and_trim_length hsa
    omega

theorem c7_depth_bound_witness :
    (OrderBook.mk [] [] (FV.fin 0)).bids.length ≤ 3 ∧
      (OrderBook.mk [] [] (FV.fin 0)).asks.length ≤ 3 :=
  c7_depth_bound.1 (Json.jobj [("bids", Json.jarr []), ("asks", Json.jarr [])]) "binance" 3
    (OrderBook.mk [] [] (FV.fin 0)) (by decide)

/-- C9: on every input list whose prices and amounts are all non-NaN,
`sort_and_trim_levels` is total: the internal comparisons never panic and a
sorted, truncated list is always returned. -/
theorem c9_sort_total (levels : List PriceAmountLevel) (depth : Nat) (ascending : Bool)
    (h : ∀ l ∈ levels, noNaNLevel l) :
    ∃ out, sort_and_trim_levels levels depth ascending = some out ∧
      List.Pairwise (levelOrdered ascending) out ∧
      out.length = min depth levels.length := by
  refine ⟨(List.insertionSort (levelLe ascending) levels).take depth,
    sort_and_trim_eq ascending levels depth h, ?_, ?_⟩
  · have hs : List.Pairwise (levelLe ascending) (List.insertionSort (levelLe ascending) levels) :=
      List.sorted_insertionSort (levelLe ascending) levels
    exact (hs.sublist (List.take_sublist _ _)).imp levelLe_imp_levelOrdered
  · rw [List.length_take, (List.perm_insertionSort (levelLe ascending) levels).length_eq]

theorem c9_sort_total_witness :
    (∀ l ∈ [PriceAmountLevel.mk "e" (FV.fin 3) (FV.fin 1)], noNaNLevel l) ∧
    ∃ out, sort_and_trim_levels [PriceAmountLevel.mk "e" (FV.fin 3) (FV.fin 1)] 1 true =
        some out ∧
      List.Pairwise (levelOrdered true) out ∧
      out.length = min 1 [PriceAmountLevel.mk "e" (FV.fin 3) (FV.fin 1)].length :=
  ⟨by decide, c9_sort_total [PriceAmountLevel.mk "e" (FV.fin 3) (FV.fin 1)] 1 true (by decide)⟩

/-- C3 counterexample: on a two-element list containing a NaN price the
comparator's `unwrap` panics, so `sort_and_trim_levels` returns no list at
all — the claim's unconditional "returns the input sorted" fails. -/
theorem c3_counterexample :
    sort_and_trim_levels
      [PriceAmountLevel.mk "e" FV.nan (FV.fin 1),
        PriceAmountLevel.mk "e" (FV.fin 1) (FV.fin 1)] 2 true = none := by
  decide

/-- C3 (amended): for every list of levels whose prices and amounts are all
non-NaN, every depth and flag, `sort_and_trim_levels` returns the first
`min depth length` entries of the permutation of the input that is sorted
with primary key price (ascending when the flag is set, descending
otherwise), ties in price broken by amount descending, and full ties
(equal price, equal amount) kept in input iteration order. -/
theorem c3_sort_amended (levels : List PriceAmountLevel) (depth : Nat) (ascending : Bool)
    (h : ∀ l ∈ levels, noNaNLevel l) :
    ∃ full, full.Perm levels ∧
      List.Pairwise (levelOrdered ascending) full ∧
      (∀ k : FV × FV, full.filter (tieClass k) = levels.filter (tieClass k)) ∧
      sort_and_trim_levels levels depth ascending = some (full.take depth) ∧
      (full.take depth).length = min depth levels.length := by
  refine ⟨List.insertionSort (levelLe ascending) levels,
    List.perm_insertionSort _ _,
    (List.sorted_insertionSort (levelLe ascending) levels).imp levelLe_imp_levelOrdered,
    ?_, sort_and_trim_eq ascending levels depth h, ?_⟩
  · intro k
    exact filter_insertionSort_of_class (levelLe ascending) (tieClass k)
      (fun x y hx hy => tieClass_le ascending hx hy) levels
  · rw [List.length_take, (List.perm_insertionSort (levelLe ascending) levels).length_eq]

theorem c3_sort_amended_witness :
    (∀ l ∈ [PriceAmountLevel.mk "e" (FV.fin 2) (FV.fin 1),
        PriceAmountLevel.mk "e" (FV.fin 1) (FV.fin 1)], noNaNLevel l) ∧
    ∃ full, full.Perm [PriceAmountLevel.mk "e" (FV.fin 2) (FV.fin 1),
        PriceAmountLevel.mk "e" (FV.fin 1) (FV.fin 1)] ∧
      List.Pairwise (levelOrdered true) full ∧
      (∀ k : FV × FV, full.filter (tieClass k) =
        [PriceAmountLevel.mk "e" (FV.fin 2) (FV.fin 1),
          PriceAmountLevel.mk "e" (FV.fin 1) (FV.fin 1)].filter (tieClass k)) ∧
      sort_and_trim_levels [PriceAmountLevel.mk "e" (FV.fin 2) (FV.fin 1),
        PriceAmountLevel.mk "e" (FV.fin 1) (FV.fin 1)] 2 true = some (full.take 2) ∧
      (full.take 2).length = min 2 [PriceAmountLevel.mk "e" (FV.fin 2) (FV.fin 1),
        PriceAmountLevel.mk "e" (FV.fin 1) (FV.fin 1)].length :=
  ⟨by decide, c3_sort_amended [PriceAmountLevel.mk "e" (FV.fin 2) (FV.fin 1),
    PriceAmountLevel.mk "e" (FV.fin 1) (FV.fin 1)] 2 true (by decide)⟩

theorem sort_and_trim_mem_of_le {levels : List PriceAmountLevel} {depth : Nat}
    {ascending : Bool} {out : List PriceAmountLevel}
    (h : sort_and_trim_levels levels depth ascending = some out)
    (hd : levels.length ≤ depth) : ∀ l ∈ levels, l ∈ out := by
  unfold sort_and_trim_levels at h
  cases hs : insertionSortP (levelCmp ascending) levels with
  | none => rw [hs] at h; cases h
  | some s =>
    rw [hs] at h
    simp only [Option.map_some', Option.some.injEq] at h
    have hp := insertionSortP_perm hs
    intro l hl
    rw [← h]
    have hmem : l ∈ s := hp.mem_iff.mpr hl
    by_cases hdd : depth ≤ s.length
    · rw [if_pos hdd, List.take_of_length_le (hp.length_eq ▸ hd)]
      exact hmem
    · rw [if_neg hdd]
      exact hmem

/-- C2 counterexample: an upstream entry with amount string "0.0" parses
successfully and is kept — the returned book contains a level with
amount 0, so zero-amount entries are not discarded. -/
theorem c2_counterexample :
    process_message
      (Json.jobj [("bids", Json.jarr [Json.jarr [Json.jstr "1.0", Json.jstr "0.0"]]),
        ("asks", Json.jarr [Json.jarr [Json.jstr "2.0", Json.jstr "1.0"]])]) "e" 2 =
      some (some (OrderBook.mk [PriceAmountLevel.mk "e" (FV.fin 1) (FV.fin 0)]
        [PriceAmountLevel.mk "e" (FV.fin 2) (FV.fin 1)] (FV.fin (-1)))) ∧
    (PriceAmountLevel.mk "e" (FV.fin 1) (FV.fin 0)).amount = FV.fin 0 := by
  decide

/-- C2 (amended): `process_message` performs no filtering on the amount's
value — every successfully parsed entry, zero-amount entries included, is
present in the returned book whenever the depth does not truncate its
side. -/
theorem c2_retention_amended (msg : Json) (exchange : String) (depth : Nat) (bk : OrderBook)
    (h : process_message msg exchange depth = some (some bk)) :
    ((parsed_bids msg exchange).length ≤ depth →
      ∀ lvl ∈ parsed_bids msg exchange, lvl ∈ bk.bids) ∧
    ((parsed_asks msg exchange).length ≤ depth →
      ∀ lvl ∈ parsed_asks msg exchange, lvl ∈ bk.asks) := by
  obtain ⟨bidsArr, asksArr, hB, hA, hsb, hsa, _⟩ := process_message_some h
  rw [parsed_bids_eq hB, parsed_asks_eq hA]
  exact ⟨fun hd => sort_and_trim_mem_of_le hsb hd, fun hd => sort_and_trim_mem_of_le hsa hd⟩

theorem c2_retention_amended_witness :
    PriceAmountLevel.mk "e" (FV.fin 1) (FV.fin 0) ∈
      (OrderBook.mk [PriceAmountLevel.mk "e" (FV.fin 1) (FV.fin 0)]
        [PriceAmountLevel.mk "e" (FV.fin 2) (FV.fin 1)] (FV.fin (-1))).bids :=
  (c2_retention_amended
      (Json.jobj [("bids", Json.jarr [Json.jarr [Json.jstr "1.0", Json.jstr "0.0"]]),
        ("asks", Json.jarr [Json.jarr [Json.jstr "2.0", Json.jstr "1.0"]])]) "e" 2
      (OrderBook.mk [PriceAmountLevel.mk "e" (FV.fin 1) (FV.fin 0)]
        [PriceAmountLevel.mk "e" (FV.fin 2) (FV.fin 1)] (FV.fin (-1)))
      (by decide)).1 (by decide) (PriceAmountLevel.mk "e" (FV.fin 1) (FV.fin 0)) (by decide)

/-- Whether an `FV` value is finite (neither NaN nor an infinity). -/
def FV.isFinite : FV → Bool
  | .fin _ => true
  | _ => false

/-- C6 counterexample: the string "inf" parses successfully as an `f64`, so
an element with price "inf" is not skipped and the returned book contains a
level with a non-finite price. -/
theorem c6_counterexample :
    process_message
      (Json.jobj [("bids", Json.jarr [Json.jarr [Json.jstr "inf", Json.jstr "1.0"]]),
        ("asks", Json.jarr [Json.jarr [Json.jstr "2.0", Json.jstr "1.0"]])]) "e" 1 =
      some (some (OrderBook.mk [PriceAmountLevel.mk "e" FV.inf (FV.fin 1)]
        [PriceAmountLevel.mk "e" (FV.fin 2) (FV.fin 1)] FV.inf)) ∧
    (∃ lvl ∈ (OrderBook.mk [PriceAmountLevel.mk "e" FV.inf (FV.fin 1)]
        [PriceAmountLevel.mk "e" (FV.fin 2) (FV.fin 1)] FV.inf).bids,
      lvl.price.isFinite = false) := by
  decide

/-- C6 (amended): elements whose price or amount string fails `f64` parsing
are skipped silently; every level of the returned book carries exactly the
parsed values of some input element — but those values may be non-finite,
since strings denoting infinities or NaN parse successfully. -/
theorem c6_parse_amended (msg : Json) (exchange : String) (depth : Nat) (bk : OrderBook)
    (h : process_message msg exchange depth = some (some bk)) :
    (∀ lvl ∈ bk.bids, ∃ entry ∈ ((jsonData msg).index "bids").asArray.getD [],
      parseLevel exchange entry = some lvl) ∧
    (∀ lvl ∈ bk.asks, ∃ entry ∈ ((jsonData msg).index "asks").asArray.getD [],
      parseLevel exchange entry = some lvl) := by
  obtain ⟨bidsArr, asksArr, hB, hA, hsb, hsa, _⟩ := process_message_some h
  rw [hB, hA]
  constructor
  · intro lvl hl
    exact List.mem_filterMap.mp (sort_and_trim_subset hsb lvl hl)
  · intro lvl hl
    exact List.mem_filterMap.mp (sort_and_trim_subset hsa lvl hl)

theorem c6_parse_amended_witness :
    ∃ entry ∈ (Json.jarr [Json.jarr [Json.jstr "inf", Json.jstr "1.0"]]).asArray.getD [],
      parseLevel "e" entry = some (PriceAmountLevel.mk "e" FV.inf (FV.fin 1)) :=
  (c6_parse_amended
      (Json.jobj [("bids", Json.jarr [Json.jarr [Json.jstr "inf", Json.jstr "1.0"]]),
        ("asks", Json.jarr [Json.jarr [Json.jstr "2.0", Json.jstr "1.0"]])]) "e" 1
      (OrderBook.mk [PriceAmountLevel.mk "e" FV.inf (FV.fin 1)]
        [PriceAmountLevel.mk "e" (FV.fin 2) (FV.fin 1)] FV.inf)
      (by decide)).1 (PriceAmountLevel.mk "e" FV.inf (FV.fin 1)) (by decide)

theorem spreadOf_eq_of_heads {bids asks : List PriceAmountLevel} {fb fa : PriceAmountLevel}
    (hb : bids.head? = some fb) (ha : asks.head? = some fa) :
    spreadOf bids asks = FV.sub fb.price fa.price := by
  unfold spreadOf
  rw [hb, ha]

theorem spreadOf_of_empty {bids asks : List PriceAmountLevel}
    (h : bids = [] ∨ asks = []) : spreadOf bids asks = FV.fin 0 := by
  unfold spreadOf
  rcases h with rfl | rfl
  · cases asks.head? <;> rfl
  · cases bids.head? <;> rfl

/-- C1 counterexample: merging a book with best bid 1 and best ask 2 into an
empty book yields spread −1, which is bids[0].price − asks[0].price; the
claimed asks[0].price − bids[0].price would be 1. -/
theorem c1_counterexample :
    merge_orderbooks
      (OrderBook.mk [PriceAmountLevel.mk "binance" (FV.fin 1) (FV.fin 1)]
        [PriceAmountLevel.mk "binance" (FV.fin 2) (FV.fin 1)] (FV.fin 0))
      (OrderBook.mk [] [] (FV.fin 0)) 1 =
      some (OrderBook.mk [PriceAmountLevel.mk "binance" (FV.fin 1) (FV.fin 1)]
        [PriceAmountLevel.mk "binance" (FV.fin 2) (FV.fin 1)] (FV.fin (-1))) ∧
    (FV.fin (-1) : FV) ≠ FV.sub (FV.fin 2) (FV.fin 1) := by
  decide

/-- C1 (amended): the spread is best bid minus best ask.  For
`merge_orderbooks` it is computed from the heads of the sorted, trimmed
sides of the returned book and is 0 when either returned side is empty; for
`process_message` it is computed from the heads of the parsed bid and ask
lists in input order, before sorting, and is 0 when either parsed list is
empty. -/
theorem c1_spread_amended :
    (∀ b1 b2 depth bk, merge_orderbooks b1 b2 depth = some bk →
      bk.spread = spreadOf bk.bids bk.asks ∧
      (∀ fb fa, bk.bids.head? = some fb → bk.asks.head? = some fa →
        bk.spread = FV.sub fb.price fa.price) ∧
      ((bk.bids = [] ∨ bk.asks = []) → bk.spread = FV.fin 0)) ∧
    (∀ msg exchange depth bk, process_message msg exchange depth = some (some bk) →
      bk.spread = spreadOf (parsed_bids msg exchange) (parsed_asks msg exchange) ∧
      (∀ fb fa, (parsed_bids msg exchange).head? = some fb →
        (parsed_asks msg exchange).head? = some fa →
        bk.spread = FV.sub fb.price fa.price) ∧
      ((parsed_bids msg exchange = [] ∨ parsed_asks msg exchange = []) →
        bk.spread = FV.fin 0)) := by
  constructor
  · intro b1 b2 depth bk h
    obtain ⟨_, _, hsp⟩ := merge_orderbooks_some h
    refine ⟨hsp, fun fb fa hfb hfa => ?_, fun he => ?_⟩
    · rw [hsp, spreadOf_eq_of_heads hfb hfa]
    · rw [hsp, spreadOf_of_empty he]
  · intro msg exchange depth bk h
    obtain ⟨bidsArr, asksArr, hB, hA, _, _, hsp⟩ := process_message_some h
    rw [parsed_bids_eq hB, parsed_asks_eq hA]
    refine ⟨hsp, fun fb fa hfb hfa => ?_, fun he => ?_⟩
    · rw [hsp, spreadOf_eq_of_heads hfb hfa]
    · rw [hsp, spreadOf_of_empty he]

theorem c1_spread_amended_witness :
    (OrderBook.mk [PriceAmountLevel.mk "binance" (FV.fin 1) (FV.fin 1)]
      [PriceAmountLevel.mk "binance" (FV.fin 2) (FV.fin 1)] (FV.fin (-1))).spread =
      FV.sub (FV.fin 1) (FV.fin 2) :=
  (c1_spread_amended.1
      (OrderBook.mk [PriceAmountLevel.mk "binance" (FV.fin 1) (FV.fin 1)]
        [PriceAmountLevel.mk "binance" (FV.fin 2) (FV.fin 1)] (FV.fin 0))
      (OrderBook.mk [] [] (FV.fin 0)) 1
      (OrderBook.mk [PriceAmountLevel.mk "binance" (FV.fin 1) (FV.fin 1)]
        [PriceAmountLevel.mk "binance" (FV.fin 2) (FV.fin 1)] (FV.fin (-1)))
      (by decide)).2.1
    (PriceAmountLevel.mk "binance" (FV.fin 1) (FV.fin 1))
    (PriceAmountLevel.mk "binance" (FV.fin 2) (FV.fin 1)) (by decide) (by decide)

/-- C10: when the top-level document carries a `data` field, only its value
is consulted — two documents with the same `data` value are processed
identically regardless of any other top-level fields (including top-level
`bids` and `asks`); and when that value has no `bids` array, the function
returns nothing. -/
theorem c10_data_key :
    (∀ j1 j2 v exchange depth, j1.get "data" = some v → j2.get "data" = some v →
      process_message j1 exchange depth = process_message j2 exchange depth) ∧
    (∀ j v exchange depth, j.get "data" = some v → (v.index "bids").asArray = none →
      process_message j exchange depth = some none) := by
  constructor
  · intro j1 j2 v exchange depth h1 h2
    unfold process_message jsonData
    rw [h1, h2]
    simp only [Option.getD_some]
  · intro j v exchange depth h1 h2
    unfold process_message jsonData
    rw [h1]
    simp only [Option.getD_some]
    rw [h2]

theorem c10_data_key_witness :
    process_message (Json.jobj [("data", Json.jstr "x"),
      ("bids", Json.jarr []), ("asks", Json.jarr [])]) "e" 1 = some none :=
  c10_data_key.2 (Json.jobj [("data", Json.jstr "x"),
    ("bids", Json.jarr []), ("asks", Json.jarr [])]) (Json.jstr "x") "e" 1 rfl rfl

/-- Lower-casing character by character, the reference meaning of
"lower-cased symbol" in the claim. -/
def lowerStr (s : String) : String :=
  String.mk (s.data.map Char.toLower)

/-- C8 counterexample: the server performs no case normalisation — with CLI
symbol "ETHBTC" the Binance params entry is "ETHBTC@depth10", not the
lower-cased "ethbtc@depth10", and likewise for the Bitstamp channel. -/
theorem c8_counterexample :
    serverSymbol ["server", "ETHBTC"] = some "ETHBTC" ∧
    lowerStr "ETHBTC" = "ethbtc" ∧
    binanceStreamParam "ETHBTC" 10 = "ETHBTC@depth10" ∧
    binanceStreamParam "ETHBTC" 10 ≠ lowerStr "ETHBTC" ++ "@depth10" ∧
    bitstampChannel "ETHBTC" ≠ "detail_order_book_" ++ lowerStr "ETHBTC" := by
  decide

/-- C8 (amended): the CLI symbol is used verbatim: the Binance params entry
is the second command-line argument exactly as given followed by
"@depth{depth}", and the Bitstamp channel is "detail_order_book_" followed
by that argument exactly as given. -/
theorem c8_symbol_amended (args : List String) (symbol : String) (depth : Nat)
    (h : serverSymbol args = some symbol) :
    binanceStreamParam symbol depth = (args.get? 1).getD "" ++ "@depth" ++ toString depth ∧
    bitstampChannel symbol = "detail_order_book_" ++ (args.get? 1).getD "" := by
  have harg : args.get? 1 = some symbol := by
    unfold serverSymbol at h
    by_cases hl : args.length < 2
    · rw [if_pos hl] at h
      cases h
    · rw [if_neg hl] at h
      exact h
  rw [harg]
  exact ⟨rfl, rfl⟩

theorem c8_symbol_amended_witness :
    binanceStreamParam "ETHBTC" 10 =
      (["server", "ETHBTC"].get? 1).getD "" ++ "@depth" ++ toString 10 ∧
    bitstampChannel "ETHBTC" = "detail_order_book_" ++ (["server", "ETHBTC"].get? 1).getD "" :=
  c8_symbol_amended ["server", "ETHBTC"] "ETHBTC" 10 (by decide)


theorem fvBeq_isNaN {x y : FV} (h : FV.beq x y = true) :
    x.isNaN = false ∧ y.isNaN = false := by
  unfold FV.beq at h
  by_cases hn : (x.isNaN || y.isNaN) = true
  · rw [if_pos hn] at h
    cases h
  · rw [if_neg hn] at h
    rw [Bool.or_eq_true] at hn
    push_neg at hn
    exact ⟨Bool.not_eq_true _ ▸ Bool.eq_false_iff.mpr hn.1, Bool.eq_false_iff.mpr hn.2⟩

theorem fvBeq_refl {x : FV} (h : x.isNaN = false) : FV.beq x x = true := by
  unfold FV.beq
  rw [h, cmpFV_refl]
  rfl

theorem partialCmp_some {x y : FV} {o : Ordering} (h : FV.partialCmp x y = some o) :
    x.isNaN = false ∧ y.isNaN = false ∧ cmpFV x y = o := by
  unfold FV.partialCmp at h
  by_cases hn : (x.isNaN || y.isNaN) = true
  · rw [if_pos hn] at h
    cases h
  · rw [if_neg hn] at h
    rw [Bool.or_eq_true] at hn
    push_neg at hn
    exact ⟨Bool.eq_false_iff.mpr hn.1, Bool.eq_false_iff.mpr hn.2, Option.some.inj h⟩

/-- Whenever the source comparator succeeds, its verdict agrees with the
total key comparator. -/
theorem levelCmp_some_eq {ascending : Bool} {a b : PriceAmountLevel} {o : Ordering}
    (h : levelCmp ascending a b = some o) :
    o = cmpKey ascending (levelKey a) (levelKey b) := by
  unfold levelCmp at h
  unfold cmpKey levelKey
  simp only
  by_cases hbeq : FV.beq a.price b.price = true
  · rw [if_pos hbeq] at h
    obtain ⟨hpn, hqn⟩ := fvBeq_isNaN hbeq
    have hpe : cmpFV a.price b.price = .eq := by
      unfold FV.beq at hbeq
      rw [hpn, hqn] at hbeq
      cases hc : cmpFV a.price b.price
      · rw [hc] at hbeq; exact absurd hbeq (by decide)
      · rfl
      · rw [hc] at hbeq; exact absurd hbeq (by decide)
    rw [if_pos hpe]
    exact (partialCmp_some h).2.2.symm
  · rw [if_neg hbeq] at h
    cases ascending
    · simp only [Bool.false_eq_true, if_false] at h ⊢
      obtain ⟨hbn, han, hc⟩ := partialCmp_some h
      have hne : cmpFV a.price b.price ≠ .eq := by
        intro he
        exact hbeq (by unfold FV.beq; rw [han, hbn, he]; rfl)
      rw [if_neg hne]
      exact hc.symm
    · simp only [if_true] at h ⊢
      obtain ⟨han, hbn, hc⟩ := partialCmp_some h
      have hne : cmpFV a.price b.price ≠ .eq := by
        intro he
        exact hbeq (by unfold FV.beq; rw [han, hbn, he]; rfl)
      rw [if_neg hne]
      exact hc.symm

/-- A successful comparator verdict that is not `gt` yields `levelLe`. -/
theorem levelLe_of_cmp_ne_gt {ascending : Bool} {a b : PriceAmountLevel} {o : Ordering}
    (h : levelCmp ascending a b = some o) (ho : o ≠ .gt) : levelLe ascending a b := by
  unfold levelLe keyLe
  rw [← levelCmp_some_eq h]
  exact ho

/-- A successful `gt` verdict yields `levelLe` the other way. -/
theorem levelLe_of_cmp_gt {ascending : Bool} {a b : PriceAmountLevel}
    (h : levelCmp ascending a b = some .gt) : levelLe ascending b a := by
  unfold levelLe keyLe
  rw [cmpKey_swap, ← levelCmp_some_eq h]
  decide

theorem orderedInsertP_sorted {ascending : Bool} {a : PriceAmountLevel} :
    ∀ {l out : List PriceAmountLevel}, List.Pairwise (levelLe ascending) l →
      orderedInsertP (levelCmp ascending) a l = some out →
      List.Pairwise (levelLe ascending) out := by
  intro l
  induction l with
  | nil =>
    intro out _ h
    obtain rfl : [a] = out := Option.some.inj h
    exact List.pairwise_singleton _ _
  | cons b t ih =>
    intro out hs h
    obtain ⟨hbt, hst⟩ := List.pairwise_cons.mp hs
    unfold orderedInsertP at h
    cases hc : levelCmp ascending a b with
    | none => rw [hc] at h; cases h
    | some o =>
      rw [hc] at h
      cases o with
      | gt =>
        cases ht : orderedInsertP (levelCmp ascending) a t with
        | none => rw [ht] at h; cases h
        | some t' =>
          rw [ht] at h
          simp only [Option.map_some', Option.some.injEq] at h
          rw [← h]
          refine List.pairwise_cons.mpr ⟨?_, ih hst ht⟩
          intro x hx
          rcases List.mem_cons.mp ((orderedInsertP_perm ht).mem_iff.mp hx) with rfl | hxt
          · exact levelLe_of_cmp_gt hc
          · exact hbt x hxt
      | lt =>
        obtain rfl : a :: b :: t = out := Option.some.inj h
        refine List.pairwise_cons.mpr ⟨?_, hs⟩
        intro x hx
        have hab : levelLe ascending a b := levelLe_of_cmp_ne_gt hc (by decide)
        rcases List.mem_cons.mp hx with rfl | hxt
        · exact hab
        · exact keyLe_trans hab (hbt x hxt)
      | eq =>
        obtain rfl : a :: b :: t = out := Option.some.inj h
        refine List.pairwise_cons.mpr ⟨?_, hs⟩
        intro x hx
        have hab : levelLe ascending a b := levelLe_of_cmp_ne_gt hc (by decide)
        rcases List.mem_cons.mp hx with rfl | hxt
        · exact hab
        · exact keyLe_trans hab (hbt x hxt)

theorem insertionSortP_sorted {ascending : Bool} :
    ∀ {l out : List PriceAmountLevel},
      insertionSortP (levelCmp ascending) l = some out →
      List.Pairwise (levelLe ascending) out := by
  intro l
  induction l with
  | nil =>
    intro out h
    obtain rfl : ([] : List PriceAmountLevel) = out := Option.some.inj h
    exact List.Pairwise.nil
  | cons a t ih =>
    intro out h
    unfold insertionSortP at h
    cases ht : insertionSortP (levelCmp ascending) t with
    | none => rw [ht] at h; cases h
    | some s =>
      rw [ht] at h
      exact orderedInsertP_sorted (ih ht) h

/-- Members of one full-tie class always compare `eq` under the source
comparator (their fields are equal and non-NaN). -/
theorem tieClass_levelCmp_eq (ascending : Bool) {k : FV × FV} {a b : PriceAmountLevel}
    (ha : tieClass k a = true) (hb : tieClass k b = true) :
    levelCmp ascending a b = some .eq := by
  rw [tieClass, Bool.and_eq_true] at ha hb
  have hp : a.price = b.price := (fvBeq_true ha.1).trans (fvBeq_true hb.1).symm
  have ham : a.amount = b.amount := (fvBeq_true ha.2).trans (fvBeq_true hb.2).symm
  have hpn : a.price.isNaN = false := (fvBeq_isNaN ha.1).1
  have hamn : a.amount.isNaN = false := (fvBeq_isNaN ha.2).1
  unfold levelCmp
  rw [if_pos (hp ▸ fvBeq_refl hpn), ← ham]
  unfold FV.partialCmp
  rw [hamn]
  simp [cmpFV_refl]

theorem filter_orderedInsertP_of_neg {c : PriceAmountLevel → PriceAmountLevel → Option Ordering}
    {p : PriceAmountLevel → Bool} {a : PriceAmountLevel} (hp : p a = false) :
    ∀ {l out : List PriceAmountLevel}, orderedInsertP c a l = some out →
      out.filter p = l.filter p := by
  intro l
  induction l with
  | nil =>
    intro out h
    obtain rfl : [a] = out := Option.some.inj h
    simp [List.filter_cons, hp]
  | cons b t ih =>
    intro out h
    unfold orderedInsertP at h
    cases hc : c a b with
    | none => rw [hc] at h; cases h
    | some o =>
      rw [hc] at h
      cases o with
      | gt =>
        cases ht : orderedInsertP c a t with
        | none => rw [ht] at h; cases h
        | some t' =>
          rw [ht] at h
          simp only [Option.map_some', Option.some.injEq] at h
          rw [← h]
          simp only [List.filter_cons]
          rw [ih ht]
      | lt =>
        obtain rfl : a :: b :: t = out := Option.some.inj h
        simp [List.filter_cons, hp]
      | eq =>
        obtain rfl : a :: b :: t = out := Option.some.inj h
        simp [List.filter_cons, hp]

theorem filter_orderedInsertP_class_pos (ascending : Bool) {k : FV × FV}
    {a : PriceAmountLevel} (hp : tieClass k a = true) :
    ∀ {l out : List PriceAmountLevel},
      orderedInsertP (levelCmp ascending) a l = some out →
      out.filter (tieClass k) = a :: l.filter (tieClass k) := by
  intro l
  induction l with
  | nil =>
    intro out h
    obtain rfl : [a] = out := Option.some.inj h
    simp [List.filter_cons, hp]
  | cons b t ih =>
    intro out h
    unfold orderedInsertP at h
    cases hc : levelCmp ascending a b with
    | none => rw [hc] at h; cases h
    | some o =>
      rw [hc] at h
      cases o with
      | gt =>
        have hpb : tieClass k b = false := by
          cases hpb : tieClass k b
          · rfl
          · have := (tieClass_levelCmp_eq ascending hp hpb).symm.trans hc
            cases this
        cases ht : orderedInsertP (levelCmp ascending) a t with
        | none => rw [ht] at h; cases h
        | some t' =>
          rw [ht] at h
          simp only [Option.map_some', Option.some.injEq] at h
          rw [← h]
          simp only [List.filter_cons, hpb, Bool.false_eq_true, if_false]
          exact ih ht
      | lt =>
        obtain rfl : a :: b :: t = out := Option.some.inj h
        simp [List.filter_cons, hp]
      | eq =>
        obtain rfl : a :: b :: t = out := Option.some.inj h
        simp [List.filter_cons, hp]

theorem filter_insertionSortP_class (ascending : Bool) (k : FV × FV) :
    ∀ {l out : List PriceAmountLevel},
      insertionSortP (levelCmp ascending) l = some out →
      out.filter (tieClass k) = l.filter (tieClass k) := by
  intro l
  induction l with
  | nil =>
    intro out h
    obtain rfl : ([] : List PriceAmountLevel) = out := Option.some.inj h
    rfl
  | cons a t ih =>
    intro out h
    unfold insertionSortP at h
    cases ht : insertionSortP (levelCmp ascending) t with
    | none => rw [ht] at h; cases h
    | some s =>
      rw [ht] at h
      cases hpa : tieClass k a
      · rw [filter_orderedInsertP_of_neg hpa h]
        rw [ih ht]
        simp [List.filter_cons, hpa]
      · rw [filter_orderedInsertP_class_pos ascending hpa h]
        rw [ih ht]
        simp [List.filter_cons, hpa]

theorem sort_and_trim_some_eq {levels : List PriceAmountLevel} {depth : Nat} {ascending : Bool}
    {out : List PriceAmountLevel}
    (h : sort_and_trim_levels levels depth ascending = some out) :
    ∃ s, insertionSortP (levelCmp ascending) levels = some s ∧ out = s.take depth := by
  unfold sort_and_trim_levels at h
  cases hs : insertionSortP (levelCmp ascending) levels with
  | none => rw [hs] at h; cases h
  | some s =>
    rw [hs] at h
    simp only [Option.map_some', Option.some.injEq] at h
    refine ⟨s, rfl, ?_⟩
    by_cases hd : depth ≤ s.length
    · rw [if_pos hd] at h
      exact h.symm
    · rw [if_neg hd] at h
      rw [← h, List.take_of_length_le (Nat.le_of_lt (Nat.lt_of_not_le hd))]

theorem keys_eq_of_sortedP {ascending : Bool} {l1 l2 s1 s2 : List PriceAmountLevel}
    (hp : l1.Perm l2)
    (h1 : insertionSortP (levelCmp ascending) l1 = some s1)
    (h2 : insertionSortP (levelCmp ascending) l2 = some s2) :
    s1.map levelKey = s2.map levelKey := by
  apply List.eq_of_perm_of_sorted (r := keyLe ascending)
  · exact ((insertionSortP_perm h1).trans (hp.trans (insertionSortP_perm h2).symm)).map levelKey
  · exact List.Pairwise.map levelKey (fun _ _ hab => hab) (insertionSortP_sorted h1)
  · exact List.Pairwise.map levelKey (fun _ _ hab => hab) (insertionSortP_sorted h2)

theorem head_keys_eq {l1 l2 : List PriceAmountLevel}
    (h : l1.map levelKey = l2.map levelKey) :
    l1.head?.map levelKey = l2.head?.map levelKey := by
  rw [← List.head?_map, ← List.head?_map, h]

theorem spreadOf_eq_of_keys {b1 a1 b2 a2 : List PriceAmountLevel}
    (hb : b1.map levelKey = b2.map levelKey) (ha : a1.map levelKey = a2.map levelKey) :
    spreadOf b1 a1 = spreadOf b2 a2 := by
  have hbh := head_keys_eq hb
  have hah := head_keys_eq ha
  unfold spreadOf
  cases hb1 : b1.head? with
  | none =>
    rw [hb1] at hbh
    cases hb2 : b2.head? with
    | none => cases a1.head? <;> cases a2.head? <;> rfl
    | some y => rw [hb2] at hbh; cases hbh
  | some x =>
    rw [hb1] at hbh
    cases hb2 : b2.head? with
    | none => rw [hb2] at hbh; cases hbh
    | some y =>
      rw [hb2] at hbh
      have hxy : x.price = y.price := congrArg Prod.fst (Option.some.inj hbh)
      cases ha1 : a1.head? with
      | none =>
        rw [ha1] at hah
        cases ha2 : a2.head? with
        | none => rfl
        | some w => rw [ha2] at hah; cases hah
      | some u =>
        rw [ha1] at hah
        cases ha2 : a2.head? with
        | none => rw [ha2] at hah; cases hah
        | some w =>
          rw [ha2] at hah
          have huw : u.price = w.price := congrArg Prod.fst (Option.some.inj hah)
          show FV.sub x.price u.price = FV.sub y.price w.price
          rw [hxy, huw]

theorem filter_take_prefix {α : Type} (p : α → Bool) (l : List α) (n : Nat) :
    (l.take n).filter p = (l.filter p).take ((l.take n).filter p).length := by
  have h : l.filter p = (l.take n).filter p ++ (l.drop n).filter p := by
    rw [← List.filter_append, List.take_append_drop]
  rw [h, List.take_left]

theorem sortP_take_tie_filter {ascending : Bool} {l s : List PriceAmountLevel}
    (hs : insertionSortP (levelCmp ascending) l = some s) (depth : Nat) (k : FV × FV) :
    (s.take depth).filter (tieClass k) =
      (l.filter (tieClass k)).take ((s.take depth).filter (tieClass k)).length := by
  have h1 := filter_take_prefix (tieClass k) s depth
  rw [filter_insertionSortP_class ascending k hs] at h1
  exact h1

/-- C4: whenever both merge orders return a book, the two books agree except
possibly in the relative order of levels with equal price and equal amount:
the price-amount key sequences and the spread coincide; every output level
retains the exchange tag it carried in its input book; and in
`merge_orderbooks b1 b2 depth` the first argument's entries precede the
second argument's on full ties — each full-tie class of the output is the
initial run of that class in the order first-book-then-second-book. -/
theorem c4_merge_comm_upto_ties (b1 b2 : OrderBook) (depth : Nat) (bk12 bk21 : OrderBook)
    (h12 : merge_orderbooks b1 b2 depth = some bk12)
    (h21 : merge_orderbooks b2 b1 depth = some bk21) :
    bk12.bids.map levelKey = bk21.bids.map levelKey ∧
    bk12.asks.map levelKey = bk21.asks.map levelKey ∧
    bk12.spread = bk21.spread ∧
    (∀ l ∈ bk12.bids, l ∈ b1.bids ++ b2.bids) ∧
    (∀ l ∈ bk12.asks, l ∈ b1.asks ++ b2.asks) ∧
    (∀ k : FV × FV, bk12.bids.filter (tieClass k) =
      ((b1.bids ++ b2.bids).filter (tieClass k)).take
        (bk12.bids.filter (tieClass k)).length) ∧
    (∀ k : FV × FV, bk12.asks.filter (tieClass k) =
      ((b1.asks ++ b2.asks).filter (tieClass k)).take
        (bk12.asks.filter (tieClass k)).length) := by
  obtain ⟨hb12, ha12, hsp12⟩ := merge_orderbooks_some h12
  obtain ⟨hb21, ha21, hsp21⟩ := merge_orderbooks_some h21
  obtain ⟨sb12, hsb12, hbeq12⟩ := sort_and_trim_some_eq hb12
  obtain ⟨sa12, hsa12, haeq12⟩ := sort_and_trim_some_eq ha12
  obtain ⟨sb21, hsb21, hbeq21⟩ := sort_and_trim_some_eq hb21
  obtain ⟨sa21, hsa21, haeq21⟩ := sort_and_trim_some_eq ha21
  have hkb : bk12.bids.map levelKey = bk21.bids.map levelKey := by
    rw [hbeq12, hbeq21, List.map_take, List.map_take,
      keys_eq_of_sortedP List.perm_append_comm hsb12 hsb21]
  have hka : bk12.asks.map levelKey = bk21.asks.map levelKey := by
    rw [haeq12, haeq21, List.map_take, List.map_take,
      keys_eq_of_sortedP List.perm_append_comm hsa12 hsa21]
  refine ⟨hkb, hka, ?_, ?_, ?_, ?_, ?_⟩
  · rw [hsp12, hsp21]
    exact spreadOf_eq_of_keys hkb hka
  · exact fun l hl => sort_and_trim_subset hb12 l hl
  · exact fun l hl => sort_and_trim_subset ha12 l hl
  · intro k
    rw [hbeq12]
    exact sortP_take_tie_filter hsb12 depth k
  · intro k
    rw [haeq12]
    exact sortP_take_tie_filter hsa12 depth k

/-- A concrete one-level book used by witnesses. -/
def sampleBook1 : OrderBook :=
  ⟨[PriceAmountLevel.mk "binance" (FV.fin 1) (FV.fin 1)],
    [PriceAmountLevel.mk "binance" (FV.fin 2) (FV.fin 1)], FV.fin 0⟩

/-- A concrete empty book used by witnesses. -/
def sampleBook2 : OrderBook :=
  ⟨[], [], FV.fin 0⟩

/-- The merge of `sampleBook1` and `sampleBook2` at depth 1, in either
order. -/
def sampleMerged : OrderBook :=
  ⟨[PriceAmountLevel.mk "binance" (FV.fin 1) (FV.fin 1)],
    [PriceAmountLevel.mk "binance" (FV.fin 2) (FV.fin 1)], FV.fin (-1)⟩

theorem c4_merge_comm_upto_ties_witness :
    sampleMerged.bids.map levelKey = sampleMerged.bids.map levelKey ∧
    sampleMerged.asks.map levelKey = sampleMerged.asks.map levelKey ∧
    sampleMerged.spread = sampleMerged.spread ∧
    (∀ l ∈ sampleMerged.bids, l ∈ sampleBook1.bids ++ sampleBook2.bids) ∧
    (∀ l ∈ sampleMerged.asks, l ∈ sampleBook1.asks ++ sampleBook2.asks) ∧
    (∀ k : FV × FV, sampleMerged.bids.filter (tieClass k) =
      ((sampleBook1.bids ++ sampleBook2.bids).filter (tieClass k)).take
        (sampleMerged.bids.filter (tieClass k)).length) ∧
    (∀ k : FV × FV, sampleMerged.asks.filter (tieClass k) =
      ((sampleBook1.asks ++ sampleBook2.asks).filter (tieClass k)).take
        (sampleMerged.asks.filter (tieClass k)).length) :=
  c4_merge_comm_upto_ties sampleBook1 sampleBook2 1 sampleMerged sampleMerged
    (by decide) (by decide)

/-- The gRPC `Summary` message (proto/orderbook.proto): the spread plus bid
and ask levels; its `Level` fields mirror `PriceAmountLevel`, so levels are
reused. -/
structure Summary where
  spread : FV
  bids : List PriceAmountLevel
  asks : List PriceAmountLevel
deriving DecidableEq

/-- `orderbook_to_summary` (src/server.rs lines 26-55): a field-for-field
copy of the book into a `Summary`. -/
def orderbook_to_summary (orderbook : OrderBook) : Summary :=
  ⟨orderbook.spread, orderbook.bids, orderbook.asks⟩

/-- Modelled from the tokio bounded mpsc channel (library code): a
per-subscriber queue holding buffered summaries up to its capacity. -/
structure SubscriberQueue where
  capacity : Nat
  queued : List Summary
deriving DecidableEq

/-- Modelled from tokio `Sender::try_send`: enqueue when there is room,
fail (return `none`) when the queue is full. -/
def trySend (q : SubscriberQueue) (s : Summary) : Option SubscriberQueue :=
  if q.queued.length < q.capacity then some ⟨q.capacity, q.queued ++ [s]⟩ else none

/-- The publish statement of `process_socket_messages` (src/server.rs lines
92-96): `sender.try_send(Ok(summary)).unwrap()` — here `none` models the
panic of that `unwrap` when `try_send` fails. -/
def publishSummary (q : SubscriberQueue) (s : Summary) : Option SubscriberQueue :=
  trySend q s

/-- `book_summary` allocates the subscriber channel with capacity 100
(src/server.rs line 165). -/
def newSubscriberQueue : SubscriberQueue :=
  ⟨100, []⟩

/-- C5 counterexample: on a full capacity-100 queue the publish does not
silently drop the snapshot — `try_send` fails and the source's `unwrap`
panics the publishing task. -/
theorem c5_counterexample :
    newSubscriberQueue.capacity = 100 ∧
    publishSummary ⟨100, List.replicate 100 (orderbook_to_summary sampleMerged)⟩
      (orderbook_to_summary sampleMerged) = none := by
  decide

/-- C5 (amended): below capacity the publish enqueues the snapshot in FIFO
order and never blocks; but a publish onto a full queue is not a silent
drop — `try_send` returns an error and the `unwrap` on it panics the
publishing task. -/
theorem c5_publish_amended (q : SubscriberQueue) (s : Summary) :
    (q.queued.length < q.capacity →
      publishSummary q s = some ⟨q.capacity, q.queued ++ [s]⟩) ∧
    (q.capacity ≤ q.queued.length → publishSummary q s = none) := by
  constructor
  · intro h
    unfold publishSummary trySend
    rw [if_pos h]
  · intro h
    unfold publishSummary trySend
    rw [if_neg (Nat.not_lt.mpr h)]

theorem c5_publish_amended_witness :
    publishSummary ⟨100, []⟩ (orderbook_to_summary sampleMerged) =
      some ⟨100, [] ++ [orderbook_to_summary sampleMerged]⟩ :=
  (c5_publish_amended ⟨100, []⟩ (orderbook_to_summary sampleMerged)).1 (by decide)

end OBook
